import Mathlib

/-!
Verification of the duplicate/build-step page remover
(`duplicatepageremover.py`).

The program opens each PDF, compares every adjacent pair of pages by
rasterizing the top 10 % strip of both pages at a fixed DPI, marks the
earlier page of every matching pair, then deletes the marked indices in
descending order and saves the result.

The shallow embedding below models:
  * a `Rect` as four rational coordinates (fitz.Rect);
  * a `Page` as its bounding rectangle together with its rasterization
    function `samples : Rect → List ℕ`, which models
    `page.get_pixmap(matrix=fitz.Matrix(DPI/72, DPI/72), clip=c).samples`
    as a pure function of the clip rectangle `c` (the matrix/DPI is the
    fixed configured one, and rendering is deterministic per the library
    contract);
  * a document as a `List Page`; `fitz.Document.delete_page i` is
    `List.eraseIdx`;
  * Python `sorted(set(xs), reverse=True)` as
    `List.insertionSort (· ≥ ·) xs.dedup`;
  * the `main` driver's source-directory existence check as a boolean
    field of an abstract filesystem state.
-/

namespace DupRemover

/-- A rectangle in page coordinate space, as `fitz.Rect (x0, y0, x1, y1)`. -/
structure Rect where
  x0 : ℚ
  y0 : ℚ
  x1 : ℚ
  y1 : ℚ
deriving DecidableEq

/-- `fitz.Rect.width = x1 - x0`. -/
def Rect.width (r : Rect) : ℚ := r.x1 - r.x0

/-- `fitz.Rect.height = y1 - y0`. -/
def Rect.height (r : Rect) : ℚ := r.y1 - r.y0

/-- `TOP_FRAC = 0.10`: first 10 % of the page height. -/
def TOP_FRAC : ℚ := 1 / 10

/-- `BOT_FRAC = 0.05`: last 5 % of the page height (commented out in the
source; kept for the disabled bottom-region model). -/
def BOT_FRAC : ℚ := 1 / 20

/-- `DPI = 150`: the configured render resolution. -/
def DPI : ℕ := 150

/-- A page: its bounding rectangle plus its rasterization function.
`samples c` models the raw pixel bytes of `get_pixmap` at the configured
DPI clipped to `c`. -/
structure Page where
  rect : Rect
  samples : Rect → List ℕ

instance : Inhabited Page := ⟨⟨⟨0, 0, 0, 0⟩, fun _ => []⟩⟩

/-- `render_region(page, clip)`: render a clipped region of a page and
return raw pixel bytes (`pix.samples`). -/
def render_region (page : Page) (clip : Rect) : List ℕ :=
  page.samples clip

/-- The top-region clip built in `regions_match`:
`fitz.Rect(rect_a.x0, rect_a.y0, rect_a.x1, rect_a.y0 + h * TOP_FRAC)`
with `h = rect_a.height`. -/
def top_clip (r : Rect) : Rect :=
  ⟨r.x0, r.y0, r.x1, r.y0 + r.height * TOP_FRAC⟩

/-- The bottom-region clip of the disabled code path:
`fitz.Rect(rect_a.x0, rect_a.y1 - h * BOT_FRAC, rect_a.x1, rect_a.y1)`. -/
def bot_clip (r : Rect) : Rect :=
  ⟨r.x0, r.y1 - r.height * BOT_FRAC, r.x1, r.y1⟩

/-- `regions_match(page_a, page_b)`: pages with different `(width, height)`
are never duplicates; otherwise compare the rendered top region of both
pages (the bottom-region comparison is commented out in the source). -/
def regions_match (page_a page_b : Page) : Bool :=
  if (page_a.rect.width, page_a.rect.height) ≠ (page_b.rect.width, page_b.rect.height) then
    false
  else
    if render_region page_a (top_clip page_a.rect) ≠
        render_region page_b (top_clip page_a.rect) then
      false
    else
      true

/-- `regions_match` instrumented with the list of clip rectangles that are
passed to `render_region`, in evaluation order.  Mirrors the source's
control flow exactly; used to state which regions are (not) rasterized. -/
def regions_match_trace (page_a page_b : Page) : Bool × List Rect :=
  if (page_a.rect.width, page_a.rect.height) ≠ (page_b.rect.width, page_b.rect.height) then
    (false, [])
  else
    if render_region page_a (top_clip page_a.rect) ≠
        render_region page_b (top_clip page_a.rect) then
      (false, [top_clip page_a.rect, top_clip page_a.rect])
    else
      (true, [top_clip page_a.rect, top_clip page_a.rect])

/-- `doc[i]` for a document modelled as a `List Page` (all uses are in
bounds, so the default value is irrelevant). -/
def pageAt (doc : List Page) (i : ℕ) : Page :=
  doc.getD i default

/-- The scan phase of `process_pdf`: `for i in range(1, n_pages):
if regions_match(doc[i-1], doc[i]): pages_to_delete.append(i - 1)`. -/
def markedIndices (doc : List Page) : List ℕ :=
  (List.range' 1 (doc.length - 1)).filterMap fun i =>
    if regions_match (pageAt doc (i - 1)) (pageAt doc i) then some (i - 1) else none

/-- `pages_to_delete = sorted(set(pages_to_delete), reverse=True)`. -/
def pages_to_delete (doc : List Page) : List ℕ :=
  List.insertionSort (· ≥ ·) (markedIndices doc).dedup

/-- The prune phase: `for pg in pages_to_delete: doc.delete_page(pg)`. -/
def applyDeletions (doc : List Page) (dels : List ℕ) : List Page :=
  dels.foldl (fun d pg => d.eraseIdx pg) doc

/-- `process_pdf`: returns the saved page sequence and the number of pages
removed.  A document with at most one page is saved unchanged with zero
removals; otherwise the scan marks earlier pages of matching adjacent
pairs, the marks are deduplicated and sorted descending, and the marked
indices are deleted. -/
def process_pdf (doc : List Page) : List Page × ℕ :=
  if doc.length ≤ 1 then (doc, 0)
  else (applyDeletions doc (pages_to_delete doc), (pages_to_delete doc).length)

/-- Positional filter used to reason about descending-order deletion:
keep exactly the pages whose absolute position (starting at `off`) is not
in `dels`. -/
def keptFrom (doc : List Page) (dels : List ℕ) (off : ℕ) : List Page :=
  match doc with
  | [] => []
  | p :: rest =>
      if off ∈ dels then keptFrom rest dels (off + 1)
      else p :: keptFrom rest dels (off + 1)

/-- The positions of the input document that survive `process_pdf`. -/
def keptPositions (doc : List Page) : List ℕ :=
  (List.range doc.length).filter fun j => decide (j ∉ markedIndices doc)

/-- Abstract filesystem state seen by `main`: whether the source directory
exists, and the page sequences of the PDF documents found under it. -/
structure FS where
  srcExists : Bool
  pdfDocs : List (List Page)

/-- Observable outcome of `main`: process exit code, whether the
"Source directory not found" diagnostic was printed, and the
`process_pdf` results written under the destination tree. -/
structure MainOutcome where
  exitCode : ℕ
  diagnostic : Bool
  processed : List (List Page × ℕ)

/-- `main`: `if not SRC_DIR.exists(): print(...); sys.exit(1)`, otherwise
walk the tree and run `process_pdf` on every PDF. -/
def main (fs : FS) : MainOutcome :=
  if fs.srcExists = false then ⟨1, true, []⟩
  else ⟨0, false, fs.pdfDocs.map process_pdf⟩

/-! ### Concrete pages and documents used by the witnesses -/

/-- A 10 × 20 page whose every region renders to `[1]`. -/
def pageA : Page := ⟨⟨0, 0, 10, 20⟩, fun _ => [1]⟩

/-- A 10 × 20 page that renders to `[1]` on clips contained in the top
strip (`y1 ≤ 2`) and to `[9]` elsewhere: same top region as `pageA`,
different body. -/
def pageB : Page := ⟨⟨0, 0, 10, 20⟩, fun r => if r.y1 ≤ 2 then [1] else [9]⟩

/-- A 10 × 20 page whose every region renders to `[7]`. -/
def pageC : Page := ⟨⟨0, 0, 10, 20⟩, fun _ => [7]⟩

/-- A 5 × 20 page (different width) rendering like `pageA`. -/
def pageD : Page := ⟨⟨0, 0, 5, 20⟩, fun _ => [1]⟩

/-- One-page document. -/
def doc1 : List Page := [pageA]

/-- Two pages with identical top regions: page 0 is a build step of 1. -/
def doc2 : List Page := [pageA, pageB]

/-- Chain `[C, A, B, C]`: only the pair (1, 2) matches. -/
def doc4 : List Page := [pageC, pageA, pageB, pageC]

/-- A filesystem state whose source directory is missing. -/
def fsMissing : FS := ⟨false, [doc2]⟩

/-! ### Helper lemmas -/

lemma mem_range'_iff {s n m : ℕ} : m ∈ List.range' s n ↔ s ≤ m ∧ m < s + n := by
  rw [List.mem_range']
  constructor
  · rintro ⟨i, hi, rfl⟩
    omega
  · intro h
    exact ⟨m - s, by omega, by omega⟩

lemma mem_markedIndices {doc : List Page} {j : ℕ} :
    j ∈ markedIndices doc ↔
      j + 1 < doc.length ∧ regions_match (pageAt doc j) (pageAt doc (j + 1)) = true := by
  unfold markedIndices
  rw [List.mem_filterMap]
  constructor
  · rintro ⟨i, hi, hf⟩
    rw [mem_range'_iff] at hi
    by_cases h : regions_match (pageAt doc (i - 1)) (pageAt doc i) = true
    · rw [if_pos h] at hf
      have hij : i - 1 = j := by exact Option.some.inj hf
      have hi1 : i = j + 1 := by omega
      subst hi1
      rw [Nat.add_sub_cancel] at h
      exact ⟨by omega, h⟩
    · rw [if_neg h] at hf
      exact absurd hf (by simp)
  · rintro ⟨h1, h2⟩
    refine ⟨j + 1, ?_, ?_⟩
    · rw [mem_range'_iff]
      omega
    · rw [Nat.add_sub_cancel, if_pos h2]

lemma markedIndices_of_short {doc : List Page} (h : doc.length ≤ 1) :
    markedIndices doc = [] := by
  unfold markedIndices
  have h0 : doc.length - 1 = 0 := by omega
  rw [h0, List.range'_zero, List.filterMap_nil]

lemma keptFrom_of_lt {doc : List Page} {dels : List ℕ} {off : ℕ}
    (h : ∀ x ∈ dels, x < off) : keptFrom doc dels off = doc := by
  induction doc generalizing off with
  | nil => rfl
  | cons p rest ih =>
    have hni : off ∉ dels := fun hmem => absurd (h off hmem) (lt_irrefl off)
    simp only [keptFrom, if_neg hni]
    rw [ih (fun x hx => Nat.lt_succ_of_lt (h x hx))]

lemma keptFrom_append {xs ys : List Page} {dels : List ℕ} {off : ℕ} :
    keptFrom (xs ++ ys) dels off =
      keptFrom xs dels off ++ keptFrom ys dels (off + xs.length) := by
  induction xs generalizing off with
  | nil => simp [keptFrom]
  | cons p rest ih =>
    have harr : off + 1 + rest.length = off + (rest.length + 1) := by omega
    by_cases h : off ∈ dels
    · simp only [List.cons_append, keptFrom, List.append_eq, if_pos h, List.length_cons]
      rw [ih, harr]
    · simp only [List.cons_append, keptFrom, List.append_eq, if_neg h, List.length_cons]
      rw [ih, harr]

lemma keptFrom_congr {doc : List Page} {S T : List ℕ} {off : ℕ}
    (h : ∀ j, off ≤ j → j < off + doc.length → (j ∈ S ↔ j ∈ T)) :
    keptFrom doc S off = keptFrom doc T off := by
  induction doc generalizing off with
  | nil => rfl
  | cons p rest ih =>
    have h0 : off ∈ S ↔ off ∈ T :=
      h off le_rfl (by simp only [List.length_cons]; omega)
    have ht : ∀ j, off + 1 ≤ j → j < off + 1 + rest.length → (j ∈ S ↔ j ∈ T) := by
      intro j a b
      exact h j (by omega) (by simp only [List.length_cons]; omega)
    by_cases hs : off ∈ S
    · simp only [keptFrom, if_pos hs, if_pos (h0.mp hs), ih ht]
    · simp only [keptFrom, if_neg hs, if_neg (fun c => hs (h0.mpr c)), ih ht]

lemma keptFrom_sublist (doc : List Page) (dels : List ℕ) (off : ℕ) :
    List.Sublist (keptFrom doc dels off) doc := by
  induction doc generalizing off with
  | nil => simp [keptFrom]
  | cons p rest ih =>
    by_cases h : off ∈ dels
    · simp only [keptFrom, if_pos h]
      exact (ih (off + 1)).cons p
    · simp only [keptFrom, if_neg h]
      exact (ih (off + 1)).cons₂ p

lemma applyDeletions_nil (doc : List Page) : applyDeletions doc [] = doc := rfl

lemma applyDeletions_cons (doc : List Page) (i : ℕ) (rest : List ℕ) :
    applyDeletions doc (i :: rest) = applyDeletions (doc.eraseIdx i) rest := rfl

lemma length_applyDeletions : ∀ {dels : List ℕ} {doc : List Page},
    List.Pairwise (· > ·) dels → (∀ x ∈ dels, x < doc.length) →
    (applyDeletions doc dels).length = doc.length - dels.length := by
  intro dels
  induction dels with
  | nil => intro doc _ _; simp [applyDeletions]
  | cons i rest ih =>
    intro doc hp hb
    rw [List.pairwise_cons] at hp
    obtain ⟨hgt, hp'⟩ := hp
    have hi : i < doc.length := hb i (List.mem_cons_self i rest)
    have hlen : (doc.eraseIdx i).length = doc.length - 1 := by
      rw [List.length_eraseIdx, if_pos hi]
    have hb' : ∀ x ∈ rest, x < (doc.eraseIdx i).length := by
      intro x hx
      rw [hlen]
      have := hgt x hx
      omega
    rw [applyDeletions_cons, ih hp' hb', hlen, List.length_cons]
    omega

lemma applyDeletions_eq_keptFrom : ∀ {dels : List ℕ} {doc : List Page},
    List.Pairwise (· > ·) dels → (∀ x ∈ dels, x < doc.length) →
    applyDeletions doc dels = keptFrom doc dels 0 := by
  intro dels
  induction dels with
  | nil =>
    intro doc _ _
    rw [applyDeletions_nil, keptFrom_of_lt (by simp)]
  | cons i rest ih =>
    intro doc hp hb
    rw [List.pairwise_cons] at hp
    obtain ⟨hgt, hp'⟩ := hp
    have hi : i < doc.length := hb i (List.mem_cons_self i rest)
    have hb' : ∀ x ∈ rest, x < (doc.eraseIdx i).length := by
      intro x hx
      rw [List.length_eraseIdx, if_pos hi]
      have := hgt x hx
      omega
    have htake : (doc.take i).length = i := by
      rw [List.length_take]
      omega
    rw [applyDeletions_cons, ih hp' hb', List.eraseIdx_eq_take_drop_succ, keptFrom_append]
    conv_rhs => rw [← List.take_append_drop i doc, List.drop_eq_getElem_cons hi, keptFrom_append]
    rw [htake]
    have hsnd : keptFrom (doc[i] :: doc.drop (i + 1)) (i :: rest) i = doc.drop (i + 1) := by
      simp only [keptFrom, if_pos (List.mem_cons_self i rest)]
      refine keptFrom_of_lt ?_
      intro x hx
      rcases List.mem_cons.mp hx with rfl | hx
      · omega
      · have := hgt x hx
        omega
    have hfst : keptFrom (doc.drop (i + 1)) rest i = doc.drop (i + 1) := by
      refine keptFrom_of_lt ?_
      intro x hx
      have := hgt x hx
      omega
    rw [Nat.zero_add, hsnd, hfst]
    congr 1
    refine keptFrom_congr ?_
    intro j hj hjlt
    rw [htake] at hjlt
    simp only [List.mem_cons]
    constructor
    · intro hjr
      exact Or.inr hjr
    · rintro (rfl | hjr)
      · omega
      · exact hjr

lemma keptFrom_eq_map : ∀ (doc : List Page) (S : List ℕ) (off : ℕ),
    keptFrom doc S off =
      ((List.range doc.length).filter fun j => decide (j + off ∉ S)).map
        (fun j => pageAt doc j) := by
  intro doc
  induction doc with
  | nil => intro S off; rfl
  | cons p rest ih =>
    intro S off
    have hpred : ((fun j => decide (j + off ∉ S)) ∘ Nat.succ) =
        fun j => decide (j + (off + 1) ∉ S) := by
      funext j
      have h1 : Nat.succ j + off = j + (off + 1) := by omega
      simp only [Function.comp_apply, h1]
    have hmap : ((fun j => pageAt (p :: rest) j) ∘ Nat.succ) =
        fun j => pageAt rest j := by
      funext j
      simp [pageAt]
    rw [List.length_cons, List.range_succ_eq_map, List.filter_cons]
    simp only [List.filter_map, hpred]
    by_cases h : off ∈ S
    · have hc : decide (0 + off ∉ S) = false := by
        simp [h]
      rw [hc]
      simp only [Bool.false_eq_true, if_false, List.map_map, hmap]
      simp only [keptFrom, if_pos h]
      exact ih S (off + 1)
    · have hc : decide (0 + off ∉ S) = true := by
        simp [h]
      rw [hc]
      simp only [eq_self_iff_true, if_true, List.map_cons, List.map_map, hmap]
      simp only [keptFrom, if_neg h]
      rw [ih]
      rfl

lemma pages_to_delete_perm (doc : List Page) :
    List.Perm (pages_to_delete doc) (markedIndices doc).dedup :=
  List.perm_insertionSort _ _

lemma pages_to_delete_sorted (doc : List Page) :
    List.Sorted (· ≥ ·) (pages_to_delete doc) :=
  List.sorted_insertionSort _ _

lemma pages_to_delete_nodup (doc : List Page) : (pages_to_delete doc).Nodup :=
  (pages_to_delete_perm doc).symm.nodup (List.nodup_dedup _)

lemma mem_pages_to_delete {doc : List Page} {x : ℕ} :
    x ∈ pages_to_delete doc ↔ x ∈ markedIndices doc := by
  rw [(pages_to_delete_perm doc).mem_iff, List.mem_dedup]

lemma pages_to_delete_pairwise (doc : List Page) :
    List.Pairwise (· > ·) (pages_to_delete doc) := by
  have hs : List.Pairwise (· ≥ ·) (pages_to_delete doc) := pages_to_delete_sorted doc
  have hn : List.Pairwise (· ≠ ·) (pages_to_delete doc) := pages_to_delete_nodup doc
  exact (hs.and hn).imp fun h => lt_of_le_of_ne h.1 (Ne.symm h.2)

lemma pages_to_delete_lt {doc : List Page} :
    ∀ x ∈ pages_to_delete doc, x + 1 < doc.length := by
  intro x hx
  exact (mem_markedIndices.mp (mem_pages_to_delete.mp hx)).1

lemma pages_to_delete_length_le (doc : List Page) :
    (pages_to_delete doc).length ≤ doc.length - 1 := by
  rw [(pages_to_delete_perm doc).length_eq]
  calc (markedIndices doc).dedup.length
      ≤ (markedIndices doc).length := (List.dedup_sublist _).length_le
    _ ≤ (List.range' 1 (doc.length - 1)).length := List.length_filterMap_le _ _
    _ = doc.length - 1 := by rw [List.length_range']

lemma process_pdf_fst_keptFrom (doc : List Page) :
    (process_pdf doc).1 = keptFrom doc (markedIndices doc) 0 := by
  unfold process_pdf
  by_cases h : doc.length ≤ 1
  · rw [if_pos h, markedIndices_of_short h, keptFrom_of_lt (by simp)]
  · rw [if_neg h]
    dsimp only
    rw [applyDeletions_eq_keptFrom (pages_to_delete_pairwise doc)
      (fun x hx => by have := pages_to_delete_lt x hx; omega)]
    exact keptFrom_congr fun j _ _ => mem_pages_to_delete

lemma process_pdf_fst_map (doc : List Page) :
    (process_pdf doc).1 = (keptPositions doc).map (pageAt doc) := by
  rw [process_pdf_fst_keptFrom, keptFrom_eq_map]
  unfold keptPositions
  refine congrArg _ (List.filter_congr ?_)
  intro j _
  rw [Nat.add_zero]

lemma process_pdf_snd (doc : List Page) :
    (process_pdf doc).2 = doc.length - ((process_pdf doc).1).length := by
  unfold process_pdf
  by_cases h : doc.length ≤ 1
  · rw [if_pos h]
    simp
  · rw [if_neg h]
    dsimp only
    rw [length_applyDeletions (pages_to_delete_pairwise doc)
      (fun x hx => by have := pages_to_delete_lt x hx; omega)]
    have h1 := pages_to_delete_length_le doc
    omega

lemma map_pageAt_range (doc : List Page) :
    (List.range doc.length).map (pageAt doc) = doc := by
  apply List.ext_getElem
  · simp
  · intro i h1 h2
    simp only [List.getElem_map, List.getElem_range]
    exact List.getD_eq_getElem _ _ h2

lemma mem_keptPositions {doc : List Page} {j : ℕ} :
    j ∈ keptPositions doc ↔ j < doc.length ∧ j ∉ markedIndices doc := by
  unfold keptPositions
  rw [List.mem_filter, List.mem_range]
  simp

lemma keptPositions_pairwise (doc : List Page) :
    List.Pairwise (· < ·) (keptPositions doc) :=
  List.Pairwise.filter _ (List.pairwise_lt_range _)

lemma valid_prefix : ∀ (pre : List ℕ) (doc : List Page) (i : ℕ) (suf : List ℕ),
    List.Pairwise (· > ·) (pre ++ i :: suf) →
    (∀ x ∈ pre ++ i :: suf, x < doc.length) →
    i < (applyDeletions doc pre).length := by
  intro pre
  induction pre with
  | nil =>
    intro doc i suf _ hb
    exact hb i (by simp)
  | cons j pre' ih =>
    intro doc i suf hp hb
    rw [List.cons_append, List.pairwise_cons] at hp
    obtain ⟨hgt, hp'⟩ := hp
    have hj : j < doc.length := hb j (by simp)
    have hlen : (doc.eraseIdx j).length = doc.length - 1 := by
      rw [List.length_eraseIdx, if_pos hj]
    have hb' : ∀ x ∈ pre' ++ i :: suf, x < (doc.eraseIdx j).length := by
      intro x hx
      rw [hlen]
      have := hgt x hx
      omega
    rw [applyDeletions_cons]
    exact ih (doc.eraseIdx j) i suf hp' hb'

lemma process_pdf_of_no_marks {d : List Page} (h : markedIndices d = []) :
    process_pdf d = (d, 0) := by
  unfold process_pdf
  by_cases hl : d.length ≤ 1
  · rw [if_pos hl]
  · rw [if_neg hl]
    have hptd : pages_to_delete d = [] := by
      unfold pages_to_delete
      rw [h]
      rfl
    rw [hptd]
    rfl

/-! ### Evaluation lemmas for the concrete pages and documents -/

lemma rm_AB : regions_match pageA pageB = true := by
  norm_num [regions_match, render_region, top_clip, pageA, pageB,
    Rect.width, Rect.height, TOP_FRAC]

lemma rm_CA : regions_match pageC pageA = false := by
  norm_num [regions_match, render_region, top_clip, pageC, pageA,
    Rect.width, Rect.height, TOP_FRAC]

lemma rm_BC : regions_match pageB pageC = false := by
  norm_num [regions_match, render_region, top_clip, pageB, pageC,
    Rect.width, Rect.height, TOP_FRAC]

lemma marked_doc2 : markedIndices doc2 = [0] := by
  unfold markedIndices
  rw [show doc2.length - 1 = 1 from rfl, show List.range' 1 1 = [1] from rfl]
  simp only [List.filterMap_cons, List.filterMap_nil,
    show pageAt doc2 0 = pageA from rfl, show pageAt doc2 1 = pageB from rfl, rm_AB]
  simp

lemma marked_doc4 : markedIndices doc4 = [1] := by
  unfold markedIndices
  rw [show doc4.length - 1 = 3 from rfl, show List.range' 1 3 = [1, 2, 3] from rfl]
  simp only [List.filterMap_cons, List.filterMap_nil,
    show pageAt doc4 0 = pageC from rfl, show pageAt doc4 1 = pageA from rfl,
    show pageAt doc4 2 = pageB from rfl, show pageAt doc4 3 = pageC from rfl,
    rm_AB, rm_CA, rm_BC]
  simp

lemma ptd_doc2 : pages_to_delete doc2 = [0] := by
  unfold pages_to_delete
  rw [marked_doc2]
  rfl

lemma kept_doc2 : keptPositions doc2 = [1] := by
  unfold keptPositions
  rw [show List.range doc2.length = [0, 1] from rfl]
  simp only [List.filter_cons, List.filter_nil, marked_doc2]
  norm_num

/-! ### Claim theorems -/

/-- C1: for two pages with equal `(width, height)`, `regions_match` returns
`true` iff the rasterized top regions (the clip from `y0` to
`y0 + 0.10 * height`, full width, rendered at the configured DPI) are
byte-for-byte identical; moreover every rectangle passed to the rasterizer
is the top clip — the bottom region is never consulted. -/
theorem regions_match_spec (a b : Page)
    (hw : a.rect.width = b.rect.width) (hh : a.rect.height = b.rect.height) :
    (regions_match a b = true ↔
      render_region a (top_clip a.rect) = render_region b (top_clip a.rect)) ∧
    ∀ c ∈ (regions_match_trace a b).2, c = top_clip a.rect := by
  have hne : ¬((a.rect.width, a.rect.height) ≠ (b.rect.width, b.rect.height)) := by
    simp [hw, hh]
  constructor
  · unfold regions_match
    rw [if_neg hne]
    by_cases hr : render_region a (top_clip a.rect) = render_region b (top_clip a.rect)
    · rw [if_neg (not_not_intro hr)]
      simp [hr]
    · rw [if_pos hr]
      simp [hr]
  · have h2 : (regions_match_trace a b).2 = [top_clip a.rect, top_clip a.rect] := by
      unfold regions_match_trace
      rw [if_neg hne]
      by_cases hr : render_region a (top_clip a.rect) = render_region b (top_clip a.rect)
      · rw [if_neg (not_not_intro hr)]
      · rw [if_pos hr]
    intro c hc
    rw [h2] at hc
    rcases List.mem_cons.mp hc with rfl | hc
    · rfl
    · rcases List.mem_cons.mp hc with rfl | hc
      · rfl
      · exact absurd hc (List.not_mem_nil c)

theorem regions_match_spec_witness :
    regions_match pageA pageB = true ↔
      render_region pageA (top_clip pageA.rect) = render_region pageB (top_clip pageA.rect) :=
  (regions_match_spec pageA pageB rfl rfl).1

/-- C3: two pages whose bounding rectangles differ in `(width, height)` are
never judged a duplicate pair — `regions_match` returns `false` — and no
clip of either page is rasterized (the trace of rasterizer calls is
empty). -/
theorem dims_mismatch_not_duplicate (a b : Page)
    (h : (a.rect.width, a.rect.height) ≠ (b.rect.width, b.rect.height)) :
    regions_match a b = false ∧ (regions_match_trace a b).2 = [] := by
  constructor
  · unfold regions_match
    rw [if_pos h]
  · unfold regions_match_trace
    rw [if_pos h]

theorem dims_mismatch_not_duplicate_witness :
    regions_match pageA pageD = false ∧ (regions_match_trace pageA pageD).2 = [] :=
  dims_mismatch_not_duplicate pageA pageD
    (by norm_num [pageA, pageD, Rect.width, Rect.height, Prod.ext_iff])

/-- C4: `process_pdf` marks exactly the indices `i - 1` such that
`1 ≤ i ≤ page_count - 1` and the detector accepts pages `(i - 1, i)` of
the original sequence (equivalently: `j` is marked iff `j + 1 < n` and
pages `(j, j + 1)` match); the output is the original sequence restricted
to unmarked positions (no deletion interleaves with the scan), and the
returned count equals input page count minus output page count. -/
theorem process_pdf_marks_and_count (doc : List Page) :
    (∀ j, j ∈ markedIndices doc ↔
      j + 1 < doc.length ∧ regions_match (pageAt doc j) (pageAt doc (j + 1)) = true) ∧
    (process_pdf doc).1 = (keptPositions doc).map (pageAt doc) ∧
    (process_pdf doc).2 = doc.length - ((process_pdf doc).1).length :=
  ⟨fun _ => mem_markedIndices, process_pdf_fst_map doc, process_pdf_snd doc⟩

theorem process_pdf_marks_and_count_witness :
    (0 ∈ markedIndices doc2 ↔
      0 + 1 < doc2.length ∧ regions_match (pageAt doc2 0) (pageAt doc2 (0 + 1)) = true) ∧
    (process_pdf doc2).2 = doc2.length - ((process_pdf doc2).1).length :=
  ⟨(process_pdf_marks_and_count doc2).1 0, (process_pdf_marks_and_count doc2).2.2⟩

/-- C5: the deletion set is fixed before pruning starts: it is
deduplicated (`Nodup`), sorted strictly descending, all its members are
valid indices of the original document, every index is still a valid
index of the document's current state at the moment it is deleted, and
the output of `process_pdf` is exactly the result of applying this fixed
deletion list. -/
theorem deletion_order_safe (doc : List Page) :
    List.Pairwise (· > ·) (pages_to_delete doc) ∧
    (pages_to_delete doc).Nodup ∧
    (∀ x ∈ pages_to_delete doc, x < doc.length) ∧
    (∀ pre i suf, pages_to_delete doc = pre ++ i :: suf →
      i < (applyDeletions doc pre).length) ∧
    (process_pdf doc).1 = applyDeletions doc (pages_to_delete doc) := by
  refine ⟨pages_to_delete_pairwise doc, pages_to_delete_nodup doc, ?_, ?_, ?_⟩
  · intro x hx
    have := pages_to_delete_lt x hx
    omega
  · intro pre i suf heq
    apply valid_prefix pre doc i suf
    · rw [← heq]
      exact pages_to_delete_pairwise doc
    · intro x hx
      rw [← heq] at hx
      have := pages_to_delete_lt x hx
      omega
  · unfold process_pdf
    by_cases h : doc.length ≤ 1
    · rw [if_pos h]
      have hptd : pages_to_delete doc = [] := by
        unfold pages_to_delete
        rw [markedIndices_of_short h]
        rfl
      rw [hptd]
      rfl
    · rw [if_neg h]

theorem deletion_order_safe_witness :
    0 < (applyDeletions doc2 []).length :=
  (deletion_order_safe doc2).2.2.2.1 [] 0 [] (by rw [ptd_doc2]; rfl)

/-- C6: the output page sequence of `process_pdf` is a sublist of the
input — kept pages appear in their original relative order — and the
output page count never exceeds the input page count. -/
theorem output_sublist (doc : List Page) :
    List.Sublist (process_pdf doc).1 doc ∧ ((process_pdf doc).1).length ≤ doc.length := by
  have h : List.Sublist (process_pdf doc).1 doc := by
    rw [process_pdf_fst_keptFrom]
    exact keptFrom_sublist doc _ 0
  exact ⟨h, h.length_le⟩

theorem output_sublist_witness :
    List.Sublist (process_pdf doc1).1 doc1 ∧ ((process_pdf doc1).1).length ≤ doc1.length :=
  output_sublist doc1

/-- C2: for a chain of `k` consecutive pages starting at `s` whose top
regions match pairwise (boundary pairs, when they exist, not matching),
exactly the `k - 1` earlier chain indices are marked for deletion while
the last chain page `s + k - 1` is kept, and the output is the original
sequence restricted to unmarked positions (each adjacent pair is judged
against the original, unmutated sequence). -/
theorem chain_collapse (doc : List Page) (s k : ℕ)
    (hk : 1 ≤ k) (hsk : s + k ≤ doc.length)
    (hchain : ∀ j, s ≤ j → j + 1 < s + k →
      regions_match (pageAt doc j) (pageAt doc (j + 1)) = true)
    (_hbefore : 1 ≤ s → regions_match (pageAt doc (s - 1)) (pageAt doc s) = false)
    (hafter : s + k < doc.length →
      regions_match (pageAt doc (s + k - 1)) (pageAt doc (s + k)) = false) :
    (process_pdf doc).1 = (keptPositions doc).map (pageAt doc) ∧
    ∀ j, s ≤ j → j < s + k →
      ((j ∈ markedIndices doc ↔ j + 1 < s + k) ∧
       (j ∈ keptPositions doc ↔ j = s + k - 1)) := by
  refine ⟨process_pdf_fst_map doc, ?_⟩
  intro j hs hj
  have hmarked : j ∈ markedIndices doc ↔ j + 1 < s + k := by
    rw [mem_markedIndices]
    constructor
    · rintro ⟨h1, h2⟩
      by_contra hge
      have hj1 : s + k = j + 1 := by omega
      have hlt : s + k < doc.length := by omega
      have hf := hafter hlt
      rw [show s + k - 1 = j from by omega, hj1] at hf
      rw [h2] at hf
      exact absurd hf (by simp)
    · intro hlt
      exact ⟨by omega, hchain j hs hlt⟩
  refine ⟨hmarked, ?_⟩
  rw [mem_keptPositions, hmarked]
  omega

theorem chain_collapse_witness :
    (1 ∈ markedIndices doc4 ↔ 1 + 1 < 1 + 2) ∧
    (2 ∈ keptPositions doc4 ↔ 2 = 1 + 2 - 1) := by
  have h := (chain_collapse doc4 1 2 (by omega) (by decide)
    (fun j h1 h2 => by
      have hj : j = 1 := by omega
      subst hj
      exact rm_AB)
    (fun _ => rm_CA)
    (fun _ => rm_BC)).2
  exact ⟨(h 1 (by omega) (by omega)).1, (h 2 (by omega) (by omega)).2⟩

/-- C7: if the processed output contains no newly-adjacent pair of kept
pages that coincidentally matches (pages that were not adjacent in the
input), then the output has no adjacent duplicate pair at all, and
running `process_pdf` a second time on the output removes zero pages and
returns the output unchanged. -/
theorem process_pdf_idempotent (doc : List Page)
    (hcoin : ∀ p q, p ∈ keptPositions doc → q ∈ keptPositions doc → p + 1 < q →
      (∀ r, p < r → r < q → r ∉ keptPositions doc) →
      regions_match (pageAt doc p) (pageAt doc q) = false) :
    markedIndices ((process_pdf doc).1) = [] ∧
    process_pdf ((process_pdf doc).1) = ((process_pdf doc).1, 0) := by
  have hout : (process_pdf doc).1 = (keptPositions doc).map (pageAt doc) :=
    process_pdf_fst_map doc
  have hnil : markedIndices ((process_pdf doc).1) = [] := by
    rw [List.eq_nil_iff_forall_not_mem]
    intro j hj
    rw [mem_markedIndices] at hj
    obtain ⟨hlen, hmat⟩ := hj
    rw [hout] at hlen hmat
    rw [List.length_map] at hlen
    have hj2 : j + 1 < (keptPositions doc).length := hlen
    have hj1 : j < (keptPositions doc).length := by omega
    have hget : ∀ t (ht : t < (keptPositions doc).length),
        pageAt ((keptPositions doc).map (pageAt doc)) t =
          pageAt doc ((keptPositions doc).get ⟨t, ht⟩) := by
      intro t ht
      unfold pageAt
      rw [List.getD_eq_getElem _ _ (by rw [List.length_map]; exact ht), List.getElem_map]
      rfl
    rw [hget j hj1, hget (j + 1) hj2] at hmat
    set p := (keptPositions doc).get ⟨j, hj1⟩ with hp
    set q := (keptPositions doc).get ⟨j + 1, hj2⟩ with hq
    have hpmem : p ∈ keptPositions doc := List.get_mem _ _ _
    have hqmem : q ∈ keptPositions doc := List.get_mem _ _ _
    have hpq : p < q := by
      have := List.pairwise_iff_getElem.mp (keptPositions_pairwise doc)
        j (j + 1) hj1 hj2 (by omega)
      simpa [hp, hq, List.get_eq_getElem] using this
    by_cases hadj : q = p + 1
    · have hpn : p < doc.length ∧ p ∉ markedIndices doc := mem_keptPositions.mp hpmem
      have hqn : q < doc.length := (mem_keptPositions.mp hqmem).1
      apply hpn.2
      rw [mem_markedIndices]
      rw [hadj] at hmat hqn
      exact ⟨hqn, hmat⟩
    · have hgap : p + 1 < q := by omega
      have hbetween : ∀ r, p < r → r < q → r ∉ keptPositions doc := by
        intro r hr1 hr2 hrmem
        obtain ⟨u, hu, hru⟩ := List.mem_iff_getElem.mp hrmem
        have hpw := List.pairwise_iff_getElem.mp (keptPositions_pairwise doc)
        rcases Nat.lt_trichotomy u j with hcase | hcase | hcase
        · have := hpw u j hu hj1 hcase
          rw [hru] at this
          have hpe : (keptPositions doc)[j] = p := by
            rw [hp, List.get_eq_getElem]
          rw [hpe] at this
          omega
        · subst hcase
          have hpe : (keptPositions doc)[u] = p := by
            rw [hp, List.get_eq_getElem]
          rw [hpe] at hru
          omega
        · rcases Nat.lt_or_ge u (j + 1) with hc2 | hc2
          · omega
          · rcases Nat.eq_or_lt_of_le hc2 with hc3 | hc3
            · subst hc3
              have hqe : (keptPositions doc)[j + 1] = q := by
                rw [hq, List.get_eq_getElem]
              rw [hqe] at hru
              omega
            · have := hpw (j + 1) u hj2 hu hc3
              rw [hru] at this
              have hqe : (keptPositions doc)[j + 1] = q := by
                rw [hq, List.get_eq_getElem]
              rw [hqe] at this
              omega
      have hfalse := hcoin p q hpmem hqmem hgap hbetween
      rw [hmat] at hfalse
      exact absurd hfalse (by simp)
  exact ⟨hnil, process_pdf_of_no_marks hnil⟩

theorem process_pdf_idempotent_witness :
    markedIndices ((process_pdf doc2).1) = [] ∧
    process_pdf ((process_pdf doc2).1) = ((process_pdf doc2).1, 0) :=
  process_pdf_idempotent doc2 (by
    intro p q hp hq hpq _
    rw [kept_doc2, List.mem_singleton] at hp hq
    subst hp
    subst hq
    exact absurd hpq (by omega))

/-- C8: a document with at most one page is left untouched: `process_pdf`
performs no comparison or deletion, the output equals the input, and the
removed-count is 0. -/
theorem single_page_unchanged (doc : List Page) (h : doc.length ≤ 1) :
    process_pdf doc = (doc, 0) := by
  unfold process_pdf
  rw [if_pos h]

theorem single_page_unchanged_witness : process_pdf doc1 = (doc1, 0) :=
  single_page_unchanged doc1 (by decide)

/-- C9: if the source directory does not exist, `main` prints the
diagnostic and exits with code 1 before processing anything: no document
is processed and nothing is written to the destination tree. -/
theorem missing_src_exits (fs : FS) (h : fs.srcExists = false) :
    (main fs).exitCode = 1 ∧ (main fs).diagnostic = true ∧ (main fs).processed = [] := by
  unfold main
  rw [if_pos h]
  exact ⟨rfl, rfl, rfl⟩

theorem missing_src_exits_witness :
    (main fsMissing).exitCode = 1 ∧ (main fsMissing).diagnostic = true ∧
      (main fsMissing).processed = [] :=
  missing_src_exits fsMissing rfl

/-- C10: for a nonempty document, the final page is never deleted: every
marked index is at most `page_count - 2`, position `page_count - 1` is
kept, and the output document has at least one page. -/
theorem last_page_kept (doc : List Page) (h : 1 ≤ doc.length) :
    (∀ j ∈ markedIndices doc, j + 2 ≤ doc.length) ∧
    doc.length - 1 ∈ keptPositions doc ∧
    1 ≤ ((process_pdf doc).1).length := by
  refine ⟨?_, ?_, ?_⟩
  · intro j hj
    have := (mem_markedIndices.mp hj).1
    omega
  · rw [mem_keptPositions]
    refine ⟨by omega, ?_⟩
    intro hm
    have := (mem_markedIndices.mp hm).1
    omega
  · unfold process_pdf
    by_cases hl : doc.length ≤ 1
    · rw [if_pos hl]
      dsimp only
      omega
    · rw [if_neg hl]
      dsimp only
      rw [length_applyDeletions (pages_to_delete_pairwise doc)
        (fun x hx => by have := pages_to_delete_lt x hx; omega)]
      have := pages_to_delete_length_le doc
      omega

theorem last_page_kept_witness :
    doc1.length - 1 ∈ keptPositions doc1 ∧ 1 ≤ ((process_pdf doc1).1).length :=
  ⟨(last_page_kept doc1 (by decide)).2.1, (last_page_kept doc1 (by decide)).2.2⟩

end DupRemover
